import Mathlib

/-!
Verification of the result-reconciliation logic of the shopping-agent
repository (`python/shopping_agent/product_detection.py`).

The Python code works on JSON dictionaries.  We embed the candidate records
shallowly: the fields the reconciler reads (`name`, `confidence`,
`relevance`, `price`) are explicit, every other field is an opaque payload
carried along unchanged.  Scores and prices are modelled as rationals
(the code only compares and averages them).  Fallible adapter calls are
modelled as `Except String (List _)` values handed to the function, mirroring
the `try/except` blocks that turn a raised exception into an empty
contribution.  Python's `sorted(key=..., reverse=True)` is a stable
descending sort, which is exactly `List.insertionSort` with the relation
`key b ≤ key a`; `list.sort(key=...)` ascending is `List.insertionSort`
with `key a ≤ key b`.  Randomness (`random.uniform`, `random.random`) is
modelled by oracle functions passed as arguments.
-/

namespace Viro

/-- A detection candidate (`detect_products` dictionaries): the reconciler
reads `name` (dedup key) and `confidence` (may be absent); everything else
(`type`, `bounding_box`, `attributes`) is opaque payload. -/
structure Candidate where
  name : String
  confidence : Option ℚ
  payload : List (String × String)
deriving DecidableEq, Repr

/-- The `comparison` object that `find_best_deal` attaches to the winning
record (lines 737-743 of `product_detection.py`). -/
structure Comparison where
  average_price : ℚ
  savings : ℚ
  savings_percentage : ℚ
  total_results : Nat
  platforms_searched : List String
deriving DecidableEq, Repr

/-- A search / platform result (`search_products`, `find_best_deal`
dictionaries): the code reads `name`, `relevance` and `price` (each may be
absent) and writes `comparison`; everything else (`id`, `platform`,
`rating`, `shipping`, ...) is opaque payload. -/
structure SResult where
  name : String
  relevance : Option ℚ
  price : Option ℚ
  payload : List (String × String)
  comparison : Option Comparison
deriving DecidableEq, Repr

/-- Python's `str.lower()` on the candidate names (ASCII case folding),
written as a plain character map. -/
def pyLower (s : String) : String := String.mk (s.data.map Char.toLower)

/-- `r.toOption.getD []`: the value a `try/except` block contributes —
the adapter's list on success, the empty list when it raised. -/
def okD {α : Type} : Except String (List α) → List α
  | Except.ok l => l
  | Except.error _ => []

/-- `p.get("confidence", 0)` (line 158/162). -/
def confOf (p : Candidate) : ℚ := p.confidence.getD 0

/-- `x.get("relevance", 0)` (line 420). -/
def relOf (r : SResult) : ℚ := r.relevance.getD 0

/-- The ordering relation of Python's `sorted(key=key, reverse=True)`:
`a` precedes `b` when `key b ≤ key a`.  `List.insertionSort` with this
relation is the stable descending sort. -/
def keyGE {α : Type} (key : α → ℚ) (a b : α) : Prop := key b ≤ key a

instance instDecKeyGE {α : Type} (key : α → ℚ) : DecidableRel (keyGE key) :=
  fun a b => inferInstanceAs (Decidable (key b ≤ key a))

instance instTotalKeyGE {α : Type} (key : α → ℚ) : IsTotal α (keyGE key) :=
  ⟨fun a b => le_total (key b) (key a)⟩

instance instTransKeyGE {α : Type} (key : α → ℚ) : IsTrans α (keyGE key) :=
  ⟨fun _ _ _ hab hbc => le_trans hbc hab⟩

/-- The OpenAI merge loop of `detect_products` (lines 146-150): walk the
OpenAI products, appending each one whose lowercased name is not in
`existing_names`, updating the set as we go.  `acc` is `detected_products`,
`names` is `existing_names` (a set, modelled as a list with membership). -/
def dedupLoop (acc : List Candidate) (names : List String) : List Candidate → List Candidate
  | [] => acc
  | p :: ps =>
    if pyLower p.name ∈ names then dedupLoop acc names ps
    else dedupLoop (acc ++ [p]) (pyLower p.name :: names) ps

/-- Structural form of `dedupLoop`: just the freshly appended products. -/
def dedupe (names : List String) : List Candidate → List Candidate
  | [] => []
  | p :: ps =>
    if pyLower p.name ∈ names then dedupe names ps
    else p :: dedupe (pyLower p.name :: names) ps

/-- The set comprehension on line 146: the lowercased name of every
already-detected product. -/
def googleNames (g : List Candidate) : List String :=
  g.map fun p => pyLower p.name

/-- Lines 130-154 of `detect_products`: Google Vision's contribution
(empty when it raised), then — only when the Google list is empty or
shorter than `max_results` — the OpenAI products merged in with the
name-dedup loop (an OpenAI failure leaves the list unchanged). -/
def detectMerged (gr orr : Except String (List Candidate)) (maxResults : Nat) :
    List Candidate :=
  let g := okD gr
  match orr with
  | Except.error _ => g
  | Except.ok os =>
    if g = [] ∨ g.length < maxResults then dedupLoop g (googleNames g) os else g

/-- Lines 156-159: keep the candidates with `p.get("confidence", 0) >=
confidence_threshold`. -/
def detectFiltered (gr orr : Except String (List Candidate)) (thr : ℚ)
    (maxResults : Nat) : List Candidate :=
  (detectMerged gr orr maxResults).filter fun p => decide (thr ≤ confOf p)

/-- `detect_products` (lines 110-166), with the two adapter calls as
`Except` inputs: merge, threshold-filter, stable sort by confidence
descending, truncate to `max_results`. -/
def detect_products (gr orr : Except String (List Candidate)) (thr : ℚ)
    (maxResults : Nat) : List Candidate :=
  (List.insertionSort (keyGE confOf) (detectFiltered gr orr thr maxResults)).take
    maxResults

/-- Line 420 of `search_products`:
`sorted(all_results, key=lambda x: x.get("relevance", 0), reverse=True)[:max_results]`. -/
def searchMerge (all : List SResult) (maxResults : Nat) : List SResult :=
  (List.insertionSort (keyGE relOf) all).take maxResults

/-- Lines 387-417 of `search_products`: concatenate every adapter's
contribution (empty for a raising adapter); if nothing came back and the
OpenAI client exists, fall back to the mock-result generator. -/
def searchAll (adapters : List (Except String (List SResult)))
    (mock : Except String (List SResult)) (openaiAvail : Bool) : List SResult :=
  let all := (adapters.map okD).flatten
  if all = [] ∧ openaiAvail then all ++ okD mock else all

/-- `search_products` (lines 371-422). -/
def search_products (adapters : List (Except String (List SResult)))
    (mock : Except String (List SResult)) (openaiAvail : Bool)
    (maxResults : Nat) : List SResult :=
  searchMerge (searchAll adapters mock openaiAvail) maxResults

/-- `x.get("price", float("inf"))` (line 733): a missing price is
infinitely expensive. -/
def priceKey (r : SResult) : WithTop ℚ :=
  match r.price with
  | some p => (p : WithTop ℚ)
  | none => ⊤

/-- `min(all_results, key=...)` (line 733): Python's `min` keeps the
first element among equals, so the accumulator is replaced only on a
strictly smaller key. -/
def minByPrice (best : SResult) : List SResult → SResult
  | [] => best
  | s :: rest => minByPrice (if priceKey s < priceKey best then s else best) rest

/-- `sum(item.get("price", 0) for item in all_results) / len(all_results)`
(line 736): a missing price counts as 0 in the average. -/
def averagePrice (l : List SResult) : ℚ :=
  (l.map fun s => s.price.getD 0).sum / (l.length : ℚ)

/-- `find_best_deal` (lines 728-747) after the platform searches: the
error dictionary on an empty result list, otherwise the minimal-price
record with the `comparison` object attached. -/
def find_best_deal (all : List SResult) (platforms : List String) :
    Except String SResult :=
  match all with
  | [] => Except.error ("No results found")
  | x :: xs =>
    let best := minByPrice x xs
    let avg := averagePrice (x :: xs)
    let savings := avg - best.price.getD 0
    Except.ok { best with
      comparison := some {
        average_price := avg
        savings := savings
        savings_percentage := if 0 < avg then savings / avg * 100 else 0
        total_results := (x :: xs).length
        platforms_searched := platforms } }

/-- Line 32: `DEFAULT_CONFIDENCE_THRESHOLD = 0.7`. -/
def DEFAULT_CONFIDENCE_THRESHOLD : ℚ := mkRat 7 10

/-- The threshold `detect_products` actually uses (line 122 together with
the `setdefault` on line 60): the options value if given, else the
configured setting, else 0.7. -/
def effectiveThreshold (optThr settingThr : Option ℚ) : ℚ :=
  optThr.getD (settingThr.getD DEFAULT_CONFIDENCE_THRESHOLD)

/-- One entry of the mock price history (lines 637-642): `date` as days
since an arbitrary epoch (the code formats `now - i days` as an ISO date
string, whose lexicographic order is the date order). -/
structure PricePoint where
  date : Int
  price : ℚ
  in_stock : Bool
deriving DecidableEq, Repr

/-- The dictionary `get_price_history` returns (lines 647-656). -/
structure PriceHistory where
  price_history : List PricePoint
  lowest_price : ℚ
  highest_price : ℚ
  average_price : ℚ
  current_price : ℚ
deriving DecidableEq, Repr

/-- Ascending date order used by `price_history.sort(key=lambda x: x["date"])`
(line 645). -/
def dateLE (a b : PricePoint) : Prop := a.date ≤ b.date

instance instDecDateLE : DecidableRel dateLE :=
  fun a b => inferInstanceAs (Decidable (a.date ≤ b.date))

instance instTotalDateLE : IsTotal PricePoint dateLE :=
  ⟨fun a b => le_total a.date b.date⟩

instance instTransDateLE : IsTrans PricePoint dateLE :=
  ⟨fun _ _ _ => le_trans⟩

/-- Python's `round(x, 2)` on the mock price (rounding convention is
immaterial to the stated properties). -/
def round2 (q : ℚ) : ℚ := (round (q * 100) : ℤ) / 100

/-- Lines 620-622: `base_price = 99.99`, or `float(product_id) % 100 + 50`
when the id is all digits. -/
def basePrice (productId : String) : ℚ :=
  if productId ≠ "" ∧ productId.all Char.isDigit then
    (((productId.toNat?).getD 0) % 100 : ℕ) + 50
  else mkRat 9999 100

/-- Lines 629-639: the mock price for day `i`, with `random.uniform(-0.2, 0.2)`
modelled by the oracle `rand`, the weekly and monthly sale factors, and the
2-digit rounding. -/
def mockPrice (base : ℚ) (rand : Nat → ℚ) (i : Nat) : ℚ :=
  let p := base * (1 + rand i)
  let p := if i % 7 = 0 then p * mkRat 9 10 else p
  let p := if i % 30 = 0 then p * mkRat 8 10 else p
  round2 p

/-- Lines 645-656 applied to the generated history: on an empty history
`min()` raises `ValueError` (before the division by zero is reached);
otherwise build the result dictionary. -/
def buildHistory : List PricePoint → Except String PriceHistory
  | [] => Except.error ("ValueError: min() arg is an empty sequence")
  | x :: xs =>
    Except.ok {
      price_history := x :: xs
      lowest_price := (xs.map fun p => p.price).foldl min x.price
      highest_price := (xs.map fun p => p.price).foldl max x.price
      average_price := ((x :: xs).map fun p => p.price).sum / (((x :: xs).length : ℚ))
      current_price := ((x :: xs).getLast (List.cons_ne_nil x xs)).price }

/-- `get_price_history` (lines 599-660): generate `days` mock entries for
`today - i` (`i = 0, ..., days-1`), sort by date ascending, then build the
summary dictionary.  `rand` and `stock` are the randomness oracles. -/
def get_price_history (productId : String) (days : Nat) (today : Int)
    (rand : Nat → ℚ) (stock : Nat → Bool) : Except String PriceHistory :=
  let base := basePrice productId
  let raw := (List.range days).map fun (i : Nat) =>
    PricePoint.mk (today - (i : Int)) (mockPrice base rand i) (stock i)
  buildHistory (List.insertionSort dateLE raw)

/-- Number of distinct deduplication keys (lowercased names) in a list of
search results; the spec's `distinct_count`. -/
def distinctCountS (l : List SResult) : Nat :=
  ((l.map fun r => pyLower r.name).dedup).length

/-! ### Helper lemmas: stability of the descending sort -/

theorem filter_key_orderedInsert {α : Type} (key : α → ℚ) (v : ℚ) (x : α) :
    ∀ l : List α,
      (List.orderedInsert (keyGE key) x l).filter (fun c => decide (key c = v)) =
        if key x = v then x :: l.filter (fun c => decide (key c = v))
        else l.filter (fun c => decide (key c = v))
  | [] => by
    by_cases h : key x = v <;> simp [List.orderedInsert, h]
  | b :: t => by
    by_cases hrb : keyGE key x b
    · by_cases hx : key x = v <;>
        simp [List.orderedInsert, hrb, List.filter_cons, hx]
    · have hlt : key x < key b := lt_of_not_le hrb
      by_cases hb : key b = v
      · have hx : ¬ key x = v := fun hx =>
          absurd hlt (by rw [hx, hb]; exact lt_irrefl v)
        simp [List.orderedInsert, hrb, List.filter_cons, hb, hx,
          filter_key_orderedInsert key v x t]
      · by_cases hx : key x = v <;>
          simp [List.orderedInsert, hrb, List.filter_cons, hb, hx,
            filter_key_orderedInsert key v x t]

theorem filter_key_insertionSort {α : Type} (key : α → ℚ) (v : ℚ) :
    ∀ l : List α,
      (List.insertionSort (keyGE key) l).filter (fun c => decide (key c = v)) =
        l.filter (fun c => decide (key c = v))
  | [] => rfl
  | b :: t => by
    rw [List.insertionSort, filter_key_orderedInsert key v b,
      filter_key_insertionSort key v t]
    by_cases hb : key b = v <;> simp [List.filter_cons, hb]

/-! ### Helper lemmas: the dedup loop of `detect_products` -/

theorem dedupLoop_eq :
    ∀ (ps : List Candidate) (acc : List Candidate) (names : List String),
      dedupLoop acc names ps = acc ++ dedupe names ps := by
  intro ps
  induction ps with
  | nil => intro acc names; simp [dedupLoop, dedupe]
  | cons p t ih =>
    intro acc names
    by_cases h : pyLower p.name ∈ names
    · rw [dedupLoop, if_pos h, dedupe, if_pos h, ih]
    · rw [dedupLoop, if_neg h, dedupe, if_neg h, ih, List.append_assoc,
        List.singleton_append]

theorem dedupe_sublist (names : List String) :
    ∀ os : List Candidate, List.Sublist (dedupe names os) os := by
  intro os
  induction os generalizing names with
  | nil => exact List.Sublist.refl []
  | cons p ps ih =>
    by_cases h : pyLower p.name ∈ names
    · simpa [dedupe, h] using (ih names).cons p
    · simpa [dedupe, h] using (ih (pyLower p.name :: names)).cons₂ p

theorem mem_dedupe_not_mem_names {e : Candidate} :
    ∀ (os : List Candidate) (names : List String),
      e ∈ dedupe names os → pyLower e.name ∉ names := by
  intro os
  induction os with
  | nil => intro names h; simp [dedupe] at h
  | cons p ps ih =>
    intro names h
    by_cases hp : pyLower p.name ∈ names
    · exact ih names (by simpa [dedupe, hp] using h)
    · rw [dedupe, if_neg hp] at h
      rcases List.mem_cons.mp h with he | he
      · subst he; exact hp
      · intro hmem
        exact ih (pyLower p.name :: names) he (List.mem_cons_of_mem _ hmem)

theorem dedupe_pairwise :
    ∀ (os : List Candidate) (names : List String),
      (dedupe names os).Pairwise fun a b => pyLower a.name ≠ pyLower b.name := by
  intro os
  induction os with
  | nil => intro names; simp [dedupe]
  | cons p ps ih =>
    intro names
    by_cases hp : pyLower p.name ∈ names
    · simpa [dedupe, hp] using ih names
    · rw [dedupe, if_neg hp]
      refine List.Pairwise.cons ?_ (ih (pyLower p.name :: names))
      intro b hb
      have := mem_dedupe_not_mem_names ps (pyLower p.name :: names) hb
      intro hcontra
      exact this (by rw [← hcontra]; exact List.mem_cons_self _ _)

theorem dedupe_covers {o : Candidate} :
    ∀ (os : List Candidate) (names : List String), o ∈ os →
      pyLower o.name ∈ names ∨
        ∃ e ∈ dedupe names os, pyLower e.name = pyLower o.name := by
  intro os
  induction os with
  | nil => intro names h; simp at h
  | cons p ps ih =>
    intro names h
    by_cases hp : pyLower p.name ∈ names
    · rw [dedupe, if_pos hp]
      rcases List.mem_cons.mp h with he | he
      · subst he; exact Or.inl hp
      · exact ih names he
    · rw [dedupe, if_neg hp]
      rcases List.mem_cons.mp h with he | he
      · subst he
        exact Or.inr ⟨o, List.mem_cons_self _ _, rfl⟩
      · rcases ih (pyLower p.name :: names) he with hin | ⟨e, hmem, hname⟩
        · rcases List.mem_cons.mp hin with hin | hin
          · exact Or.inr ⟨p, List.mem_cons_self _ _, hin.symm⟩
          · exact Or.inl hin
        · exact Or.inr ⟨e, List.mem_cons_of_mem _ hmem, hname⟩

/-! ### Helper lemmas: membership and length through sort-and-take -/

theorem mem_take_insertionSort {α : Type} (r : α → α → Prop) [DecidableRel r]
    {l : List α} {k : Nat} {c : α} (hc : c ∈ l) (hk : l.length ≤ k) :
    c ∈ (List.insertionSort r l).take k := by
  rw [List.take_of_length_le (by rwa [List.length_insertionSort])]
  exact (List.mem_insertionSort r).mpr hc

theorem mem_searchMerge {all : List SResult} {k : Nat} {c : SResult}
    (hc : c ∈ all) (hk : all.length ≤ k) : c ∈ searchMerge all k :=
  mem_take_insertionSort _ hc hk

theorem detectMerged_sublist (gr orr : Except String (List Candidate))
    (k : Nat) : List.Sublist (detectMerged gr orr k) (okD gr ++ okD orr) := by
  match orr with
  | Except.error e => exact List.sublist_append_left _ _
  | Except.ok os =>
    by_cases h : okD gr = [] ∨ (okD gr).length < k
    · rw [detectMerged]
      simp only [h, if_true]
      rw [dedupLoop_eq]
      exact (dedupe_sublist _ os).append_left (okD gr)
    · rw [detectMerged]
      simp only [h, if_false]
      exact List.sublist_append_left _ _

theorem mem_detect_of_output {gr orr : Except String (List Candidate)}
    {thr : ℚ} {k : Nat} {c : Candidate}
    (hc : c ∈ detect_products gr orr thr k) :
    c ∈ detectFiltered gr orr thr k :=
  (List.mem_insertionSort _).mp (List.mem_of_mem_take hc)

theorem conf_of_output {gr orr : Except String (List Candidate)}
    {thr : ℚ} {k : Nat} {c : Candidate}
    (hc : c ∈ detect_products gr orr thr k) : thr ≤ confOf c := by
  have h := mem_detect_of_output hc
  have := (List.mem_filter.mp h).2
  exact of_decide_eq_true this

/-! ### Helper lemmas: `minByPrice` -/

theorem minByPrice_eq_or_mem :
    ∀ (rest : List SResult) (best : SResult),
      minByPrice best rest = best ∨ minByPrice best rest ∈ rest := by
  intro rest
  induction rest with
  | nil => intro best; exact Or.inl rfl
  | cons s t ih =>
    intro best
    rw [minByPrice]
    by_cases h : priceKey s < priceKey best
    · rw [if_pos h]
      rcases ih s with he | he
      · exact Or.inr (by rw [he]; exact List.mem_cons_self _ _)
      · exact Or.inr (List.mem_cons_of_mem _ he)
    · rw [if_neg h]
      rcases ih best with he | he
      · exact Or.inl he
      · exact Or.inr (List.mem_cons_of_mem _ he)

theorem minByPrice_le_best :
    ∀ (rest : List SResult) (best : SResult),
      priceKey (minByPrice best rest) ≤ priceKey best := by
  intro rest
  induction rest with
  | nil => intro best; exact le_refl _
  | cons s t ih =>
    intro best
    rw [minByPrice]
    by_cases h : priceKey s < priceKey best
    · rw [if_pos h]; exact le_trans (ih s) (le_of_lt h)
    · rw [if_neg h]; exact ih best

theorem minByPrice_le_mem :
    ∀ (rest : List SResult) (best s : SResult), s ∈ rest →
      priceKey (minByPrice best rest) ≤ priceKey s := by
  intro rest
  induction rest with
  | nil => intro best s h; simp at h
  | cons a t ih =>
    intro best s hs
    rw [minByPrice]
    rcases List.mem_cons.mp hs with he | he
    · subst he
      by_cases h : priceKey s < priceKey best
      · rw [if_pos h]; exact minByPrice_le_best t s
      · rw [if_neg h]
        exact le_trans (minByPrice_le_best t best) (le_of_not_lt h)
    · by_cases h : priceKey a < priceKey best
      · rw [if_pos h]; exact ih a s he
      · rw [if_neg h]; exact ih best s he

theorem priceKey_eq_top_iff (r : SResult) : priceKey r = ⊤ ↔ r.price = none := by
  cases h : r.price <;> simp [priceKey, h]

/-! ### Helper lemmas: folds for min, max and the average -/

theorem foldl_min_le_init : ∀ (l : List ℚ) (x : ℚ), l.foldl min x ≤ x := by
  intro l
  induction l with
  | nil => intro x; exact le_refl x
  | cons a t ih =>
    intro x
    rw [List.foldl_cons]
    exact le_trans (ih (min x a)) (min_le_left x a)

theorem foldl_min_le_mem :
    ∀ (l : List ℚ) (x y : ℚ), y ∈ l → l.foldl min x ≤ y := by
  intro l
  induction l with
  | nil => intro x y h; simp at h
  | cons a t ih =>
    intro x y h
    rw [List.foldl_cons]
    rcases List.mem_cons.mp h with he | he
    · exact le_trans (foldl_min_le_init t (min x a)) (by rw [he]; exact min_le_right x a)
    · exact ih (min x a) y he

theorem init_le_foldl_max : ∀ (l : List ℚ) (x : ℚ), x ≤ l.foldl max x := by
  intro l
  induction l with
  | nil => intro x; exact le_refl x
  | cons a t ih =>
    intro x
    rw [List.foldl_cons]
    exact le_trans (le_max_left x a) (ih (max x a))

theorem mem_le_foldl_max :
    ∀ (l : List ℚ) (x y : ℚ), y ∈ l → y ≤ l.foldl max x := by
  intro l
  induction l with
  | nil => intro x y h; simp at h
  | cons a t ih =>
    intro x y h
    rw [List.foldl_cons]
    rcases List.mem_cons.mp h with he | he
    · exact le_trans (by rw [he]; exact le_max_right x a) (init_le_foldl_max t (max x a))
    · exact ih (max x a) y he

theorem mul_length_le_sum {m : ℚ} :
    ∀ l : List ℚ, (∀ y ∈ l, m ≤ y) → m * (l.length : ℚ) ≤ l.sum := by
  intro l
  induction l with
  | nil => intro _; simp
  | cons a t ih =>
    intro h
    have ht : m * (t.length : ℚ) ≤ t.sum :=
      ih fun y hy => h y (List.mem_cons_of_mem _ hy)
    have ha : m ≤ a := h a (List.mem_cons_self _ _)
    calc m * ((a :: t).length : ℚ) = m * (t.length : ℚ) + m := by
          push_cast [List.length_cons]; ring
      _ ≤ t.sum + a := add_le_add ht ha
      _ = (a :: t).sum := by rw [List.sum_cons]; ring

theorem sum_le_mul_length {m : ℚ} :
    ∀ l : List ℚ, (∀ y ∈ l, y ≤ m) → l.sum ≤ m * (l.length : ℚ) := by
  intro l
  induction l with
  | nil => intro _; simp
  | cons a t ih =>
    intro h
    have ht : t.sum ≤ m * (t.length : ℚ) :=
      ih fun y hy => h y (List.mem_cons_of_mem _ hy)
    have ha : a ≤ m := h a (List.mem_cons_self _ _)
    calc (a :: t).sum = t.sum + a := by rw [List.sum_cons]; ring
      _ ≤ m * (t.length : ℚ) + m := add_le_add ht ha
      _ = m * ((a :: t).length : ℚ) := by push_cast [List.length_cons]; ring

/-! ### Claims -/

/-- Claim C1, counterexample: `search_products` performs no deduplication at
all.  Two adapters each return a result whose case-insensitive name is
`shoe`; the merged output contains both entries, not exactly one. -/
theorem c1_counterexample :
    ((search_products
        [Except.ok [(⟨"Shoe", some (mkRat 9 10), none, [], none⟩ : SResult)],
         Except.ok [(⟨"shoe", some (mkRat 99 100), none, [], none⟩ : SResult)]]
        (Except.ok []) false 5).filter fun r =>
          decide (pyLower r.name = "shoe")).length = 2 := by decide

/-- Claim C1, amended: first-source-wins deduplication happens only in
`detect_products`, and only for the OpenAI list against the names already
kept: the pre-filter merged list is the Google list followed by those OpenAI
candidates whose lowercase name clashes neither with a Google name nor with
an earlier kept OpenAI name — the later same-named candidate is dropped
regardless of its score.  `search_products` performs no deduplication: when
the cap permits, its merged output is a permutation of the full
concatenation, duplicates included. -/
theorem c1_dedup_amended :
    (∀ (g os : List Candidate) (k : Nat), g = [] ∨ g.length < k →
      ∃ extras,
        detectMerged (Except.ok g) (Except.ok os) k = g ++ extras ∧
        List.Sublist extras os ∧
        (∀ e ∈ extras, ∀ p ∈ g, pyLower e.name ≠ pyLower p.name) ∧
        extras.Pairwise (fun a b => pyLower a.name ≠ pyLower b.name) ∧
        (∀ o ∈ os, (∃ p ∈ g, pyLower p.name = pyLower o.name) ∨
          ∃ e ∈ extras, pyLower e.name = pyLower o.name)) ∧
    (∀ (all : List SResult) (k : Nat), all.length ≤ k →
      List.Perm (searchMerge all k) all) := by
  constructor
  · intro g os k h
    refine ⟨dedupe (googleNames g) os, ?_, dedupe_sublist _ os, ?_,
      dedupe_pairwise os _, ?_⟩
    · simp only [detectMerged, okD]
      rw [if_pos h, dedupLoop_eq]
    · intro e he p hp heq
      exact mem_dedupe_not_mem_names os _ he
        (by rw [heq]; exact List.mem_map_of_mem _ hp)
    · intro o ho
      rcases dedupe_covers os (googleNames g) ho with hin | hex
      · rcases List.mem_map.mp hin with ⟨p, hp, hlow⟩
        exact Or.inl ⟨p, hp, hlow⟩
      · exact Or.inr hex
  · intro all k hk
    rw [searchMerge, List.take_of_length_le (by rwa [List.length_insertionSort])]
    exact List.perm_insertionSort _ all

/-- Claim C1 amended, witness at a concrete input: with an empty Google list
the OpenAI candidate `Mug` is kept, and the dedup-extras satisfy every
clause. -/
theorem c1_dedup_amended_witness :
    (([] : List Candidate) = [] ∨ ([] : List Candidate).length < 5) ∧
    (∃ extras,
        detectMerged (Except.ok [])
          (Except.ok [(⟨"Mug", some (mkRat 9 10), []⟩ : Candidate)]) 5 =
          [] ++ extras ∧
        List.Sublist extras [(⟨"Mug", some (mkRat 9 10), []⟩ : Candidate)] ∧
        (∀ e ∈ extras, ∀ p ∈ ([] : List Candidate),
          pyLower e.name ≠ pyLower p.name) ∧
        extras.Pairwise (fun a b => pyLower a.name ≠ pyLower b.name) ∧
        (∀ o ∈ [(⟨"Mug", some (mkRat 9 10), []⟩ : Candidate)],
          (∃ p ∈ ([] : List Candidate), pyLower p.name = pyLower o.name) ∨
            ∃ e ∈ extras, pyLower e.name = pyLower o.name)) :=
  ⟨Or.inl rfl, c1_dedup_amended.1 [] _ 5 (Or.inl rfl)⟩

/-- Claim C2: in both merge operations the output scores are non-increasing
(the output is `Sorted` for `keyGE`, so every later element's score is at
most every earlier one's), and the sort is stable: for every score value,
the output entries carrying that score form an order-preserving sublist of
the concatenation of the source lists. -/
theorem c2_sorted_stable :
    (∀ (all : List SResult) (k : Nat),
      (searchMerge all k).Sorted (keyGE relOf) ∧
      ∀ v : ℚ, List.Sublist
        ((searchMerge all k).filter fun c => decide (relOf c = v))
        (all.filter fun c => decide (relOf c = v))) ∧
    (∀ (gr orr : Except String (List Candidate)) (thr : ℚ) (k : Nat),
      (detect_products gr orr thr k).Sorted (keyGE confOf) ∧
      ∀ v : ℚ, List.Sublist
        ((detect_products gr orr thr k).filter fun c => decide (confOf c = v))
        ((okD gr ++ okD orr).filter fun c => decide (confOf c = v))) := by
  constructor
  · intro all k
    constructor
    · exact List.Pairwise.sublist (List.take_sublist k _)
        (List.sorted_insertionSort _ all)
    · intro v
      have h := (List.take_sublist k
        (List.insertionSort (keyGE relOf) all)).filter
          (fun c => decide (relOf c = v))
      rwa [filter_key_insertionSort relOf v all] at h
  · intro gr orr thr k
    constructor
    · exact List.Pairwise.sublist (List.take_sublist k _)
        (List.sorted_insertionSort _ _)
    · intro v
      have h1 := (List.take_sublist k
        (List.insertionSort (keyGE confOf) (detectFiltered gr orr thr k))).filter
          (fun c => decide (confOf c = v))
      rw [filter_key_insertionSort confOf v] at h1
      have h2 := (List.filter_sublist (p := fun p => decide (thr ≤ confOf p))
        (detectMerged gr orr k)).filter (fun c => decide (confOf c = v))
      have h3 := (detectMerged_sublist gr orr k).filter
        (fun c => decide (confOf c = v))
      exact h1.trans (h2.trans h3)

/-- Claim C3, counterexample: `search_products` does not deduplicate, so the
merged output can be longer than the number of distinct deduplication keys:
two same-named results yield an output of length 2 while
`min(maxResults, distinct_count) = min 5 1 = 1`. -/
theorem c3_counterexample :
    (search_products
        [Except.ok [(⟨"Shoe", some (mkRat 9 10), none, [], none⟩ : SResult)],
         Except.ok [(⟨"shoe", some (mkRat 99 100), none, [], none⟩ : SResult)]]
        (Except.ok []) false 5).length = 2 ∧
    distinctCountS (searchAll
        [Except.ok [(⟨"Shoe", some (mkRat 9 10), none, [], none⟩ : SResult)],
         Except.ok [(⟨"shoe", some (mkRat 99 100), none, [], none⟩ : SResult)]]
        (Except.ok []) false) = 1 ∧
    (search_products
        [Except.ok [(⟨"Shoe", some (mkRat 9 10), none, [], none⟩ : SResult)],
         Except.ok [(⟨"shoe", some (mkRat 99 100), none, [], none⟩ : SResult)]]
        (Except.ok []) false 5).length ≠
      min 5 (distinctCountS (searchAll
        [Except.ok [(⟨"Shoe", some (mkRat 9 10), none, [], none⟩ : SResult)],
         Except.ok [(⟨"shoe", some (mkRat 99 100), none, [], none⟩ : SResult)]]
        (Except.ok []) false)) :=
  ⟨by decide, by decide, by decide⟩

/-- Claim C3, amended: the merged output's length is the minimum of the cap
and the number of candidates that survive the code's own merge stage — in
`search_products` the total number of candidates contributed (no
deduplication), in `detect_products` the number of candidates that remain
after the name-dedup merge and the confidence-threshold filter. -/
theorem c3_length_amended :
    (∀ adapters mock av (k : Nat),
      (search_products adapters mock av k).length =
        min k (searchAll adapters mock av).length) ∧
    (∀ gr orr (thr : ℚ) (k : Nat),
      (detect_products gr orr thr k).length =
        min k (detectFiltered gr orr thr k).length) := by
  constructor
  · intro adapters mock av k
    rw [search_products, searchMerge, List.length_take, List.length_insertionSort]
  · intro gr orr thr k
    rw [detect_products, List.length_take, List.length_insertionSort]

/-- Claim C4, counterexample: in `detect_products` a candidate with a
missing confidence field is excluded by the threshold filter (default
threshold 0.7) even though the result cap of 5 permits it: the merged
output is empty. -/
theorem c4_counterexample :
    detect_products (Except.ok [(⟨"Lamp", none, []⟩ : Candidate)])
      (Except.ok []) (mkRat 7 10) 5 = [] := by decide

/-- Claim C4, amended: in `search_products` a negative or missing relevance
never causes exclusion — a missing score is read as 0 for ordering and every
candidate appears whenever the cap permits.  In `detect_products` a missing
confidence is read as 0, and any candidate whose defaulted confidence is
below the threshold is excluded, while one at or above the threshold is kept
whenever the cap permits. -/
theorem c4_scores_amended :
    (∀ (all : List SResult) (k : Nat) (c : SResult),
      c ∈ all → all.length ≤ k → c ∈ searchMerge all k) ∧
    (∀ gr orr (thr : ℚ) (k : Nat) (c : Candidate),
      c ∈ detectMerged gr orr k → confOf c < thr →
      c ∉ detect_products gr orr thr k) ∧
    (∀ gr orr (thr : ℚ) (k : Nat) (c : Candidate),
      c ∈ detectMerged gr orr k → thr ≤ confOf c →
      (detectFiltered gr orr thr k).length ≤ k →
      c ∈ detect_products gr orr thr k) := by
  refine ⟨fun all k c hc hk => mem_searchMerge hc hk, ?_, ?_⟩
  · intro gr orr thr k c _ hlt hout
    exact absurd (conf_of_output hout) (not_le.mpr hlt)
  · intro gr orr thr k c hmem hthr hk
    exact mem_take_insertionSort _
      (List.mem_filter.mpr ⟨hmem, decide_eq_true hthr⟩) hk

/-- Claim C4 amended, witness: a result with no relevance field — and a
result with a negative relevance — both survive the merge of
`search_products` when the cap permits. -/
theorem c4_scores_amended_witness :
    (⟨"Pen", none, none, [], none⟩ : SResult) ∈
      ([⟨"Pen", none, none, [], none⟩,
        ⟨"Ink", some (mkRat (-1) 2), none, [], none⟩] : List SResult) ∧
    ([⟨"Pen", none, none, [], none⟩,
      ⟨"Ink", some (mkRat (-1) 2), none, [], none⟩] : List SResult).length ≤ 5 ∧
    (⟨"Pen", none, none, [], none⟩ : SResult) ∈
      searchMerge [⟨"Pen", none, none, [], none⟩,
        ⟨"Ink", some (mkRat (-1) 2), none, [], none⟩] 5 :=
  ⟨by decide, by decide, c4_scores_amended.1 _ 5 _ (by decide) (by decide)⟩

/-- Claim C5: the merge cannot fail — it is a total function; with all
source lists empty the output is the empty list (also through
`search_products` when every adapter and the mock fallback contribute
nothing), and a result cap of 0 yields the empty list for every input. -/
theorem c5_empty_and_zero :
    (∀ k : Nat, searchMerge [] k = []) ∧
    (∀ adapters mock av (k : Nat),
      (adapters.map okD).flatten = [] → okD mock = [] →
      search_products adapters mock av k = []) ∧
    (∀ (thr : ℚ) (k : Nat),
      detect_products (Except.ok []) (Except.ok []) thr k = []) ∧
    (∀ gr orr (thr : ℚ), detect_products gr orr thr 0 = []) ∧
    (∀ adapters mock av, search_products adapters mock av 0 = []) := by
  refine ⟨?_, ?_, ?_, ?_, ?_⟩
  · intro k; simp [searchMerge]
  · intro adapters mock av k hflat hmock
    rw [search_products, searchAll]
    simp only [hflat, hmock]
    by_cases hav : av = true <;> simp [hav, searchMerge]
  · intro thr k
    simp [detect_products, detectFiltered, detectMerged, okD, dedupLoop,
      googleNames]
  · intro gr orr thr; rfl
  · intro adapters mock av; rfl

/-- Claim C5, witness: both empty-source conditions hold at a concrete
input and give the empty output. -/
theorem c5_empty_and_zero_witness :
    (([Except.ok []] : List (Except String (List SResult))).map okD).flatten
        = [] ∧
    okD (Except.ok ([] : List SResult)) = [] ∧
    search_products [Except.ok []] (Except.ok []) true 5 = [] :=
  ⟨by decide, by decide, c5_empty_and_zero.2.1 _ _ true 5 (by decide) (by decide)⟩

/-- Claim C6: an adapter failure is caught and reduced to an empty
contribution, never surfaced: replacing a raising adapter by one returning
the empty list leaves the output of `detect_products` and of
`search_products` unchanged, and the candidates contributed by every other
adapter still appear in the merged output (whenever the cap permits). -/
theorem c6_adapter_failure :
    (∀ (e : String) orr (thr : ℚ) (k : Nat),
      detect_products (Except.error e) orr thr k =
        detect_products (Except.ok []) orr thr k) ∧
    (∀ gr (e : String) (thr : ℚ) (k : Nat),
      detect_products gr (Except.error e) thr k =
        detect_products gr (Except.ok []) thr k) ∧
    (∀ pre (e : String) post mock av (k : Nat),
      search_products (pre ++ Except.error e :: post) mock av k =
        search_products (pre ++ Except.ok [] :: post) mock av k) ∧
    (∀ pre (e : String) post mock av (k : Nat) (c : SResult),
      c ∈ (pre.map okD).flatten ++ (post.map okD).flatten →
      ((pre.map okD).flatten ++ (post.map okD).flatten).length ≤ k →
      c ∈ search_products (pre ++ Except.error e :: post) mock av k) := by
  refine ⟨?_, ?_, ?_, ?_⟩
  · intro e orr thr k; rfl
  · intro gr e thr k
    simp [detect_products, detectFiltered, detectMerged, dedupLoop]
  · intro pre e post mock av k
    simp [search_products, searchAll, okD]
  · intro pre e post mock av k c hc hk
    have hjoin : ((pre ++ Except.error e :: post).map okD).flatten =
        (pre.map okD).flatten ++ (post.map okD).flatten := by
      simp [okD]
    have hne : (pre.map okD).flatten ++ (post.map okD).flatten ≠ [] :=
      List.ne_nil_of_mem hc
    rw [search_products, searchAll, hjoin, if_neg fun h => hne h.1]
    exact mem_searchMerge hc hk

/-- Claim C6, witness: with the first adapter raising, the second adapter's
result still appears in the merged output of `search_products`. -/
theorem c6_adapter_failure_witness :
    (⟨"Cup", none, none, [], none⟩ : SResult) ∈
      (([] : List (Except String (List SResult))).map okD).flatten ++
        (([Except.ok [⟨"Cup", none, none, [], none⟩]] :
          List (Except String (List SResult))).map okD).flatten ∧
    ((([] : List (Except String (List SResult))).map okD).flatten ++
        (([Except.ok [⟨"Cup", none, none, [], none⟩]] :
          List (Except String (List SResult))).map okD).flatten).length ≤ 3 ∧
    (⟨"Cup", none, none, [], none⟩ : SResult) ∈
      search_products ([] ++ Except.error "boom" ::
        [Except.ok [⟨"Cup", none, none, [], none⟩]]) (Except.ok []) true 3 :=
  ⟨by decide, by decide,
    c6_adapter_failure.2.2.2 [] "boom" [Except.ok [⟨"Cup", none, none, [], none⟩]]
      (Except.ok []) true 3 _ (by decide) (by decide)⟩

/-- Claim C7, counterexample: `find_best_deal` does mutate the winning
record — it attaches a `comparison` field.  On a one-record input the
returned record differs from the record produced by the source adapter, so
the output candidate is not field-for-field identical to any input
candidate. -/
theorem c7_counterexample :
    find_best_deal [(⟨"x", none, some 10, [], none⟩ : SResult)] ["Amazon"] =
      Except.ok ⟨"x", none, some 10, [],
        some ⟨averagePrice [(⟨"x", none, some 10, [], none⟩ : SResult)],
          averagePrice [(⟨"x", none, some 10, [], none⟩ : SResult)] - 10,
          if 0 < averagePrice [(⟨"x", none, some 10, [], none⟩ : SResult)] then
            (averagePrice [(⟨"x", none, some 10, [], none⟩ : SResult)] - 10) /
              averagePrice [(⟨"x", none, some 10, [], none⟩ : SResult)] * 100
          else 0,
          1, ["Amazon"]⟩⟩ ∧
    (⟨"x", none, some 10, [],
        some ⟨averagePrice [(⟨"x", none, some 10, [], none⟩ : SResult)],
          averagePrice [(⟨"x", none, some 10, [], none⟩ : SResult)] - 10,
          if 0 < averagePrice [(⟨"x", none, some 10, [], none⟩ : SResult)] then
            (averagePrice [(⟨"x", none, some 10, [], none⟩ : SResult)] - 10) /
              averagePrice [(⟨"x", none, some 10, [], none⟩ : SResult)] * 100
          else 0,
          1, ["Amazon"]⟩⟩ : SResult) ∉
      [(⟨"x", none, some 10, [], none⟩ : SResult)] := by
  refine ⟨rfl, ?_⟩
  intro hmem
  simp only [List.mem_singleton] at hmem
  have h := congrArg SResult.comparison hmem
  simp at h

/-- Claim C7, amended: the two merge operations never mutate a candidate —
every record in their output is, field for field, an element of the input
lists — but `find_best_deal` returns the minimal-price input record with a
`comparison` field added (its other fields unchanged). -/
theorem c7_no_mutation_amended :
    (∀ (all : List SResult) (k : Nat) (c : SResult),
      c ∈ searchMerge all k → c ∈ all) ∧
    (∀ gr orr (thr : ℚ) (k : Nat) (c : Candidate),
      c ∈ detect_products gr orr thr k → c ∈ okD gr ++ okD orr) ∧
    (∀ (all : List SResult) (ps : List String), all ≠ [] →
      ∃ r ∈ all, ∃ comp : Comparison,
        find_best_deal all ps = Except.ok { r with comparison := some comp }) := by
  refine ⟨?_, ?_, ?_⟩
  · intro all k c hc
    exact (List.mem_insertionSort _).mp (List.mem_of_mem_take hc)
  · intro gr orr thr k c hc
    exact (detectMerged_sublist gr orr k).subset
      (List.mem_filter.mp (mem_detect_of_output hc)).1
  · intro all ps hne
    match all with
    | [] => exact absurd rfl hne
    | x :: xs =>
      refine ⟨minByPrice x xs, ?_,
        ⟨averagePrice (x :: xs),
          averagePrice (x :: xs) - (minByPrice x xs).price.getD 0,
          if 0 < averagePrice (x :: xs) then
            (averagePrice (x :: xs) - (minByPrice x xs).price.getD 0) /
              averagePrice (x :: xs) * 100
          else 0, (x :: xs).length, ps⟩, rfl⟩
      rcases minByPrice_eq_or_mem xs x with he | he
      · rw [he]; exact List.mem_cons_self _ _
      · exact List.mem_cons_of_mem _ he

/-- Claim C7 amended, witness: on a concrete one-record input the returned
best deal is the input record with only the comparison field added. -/
theorem c7_no_mutation_amended_witness :
    ([(⟨"x", none, some 10, [], none⟩ : SResult)] ≠ []) ∧
    (∃ r ∈ [(⟨"x", none, some 10, [], none⟩ : SResult)], ∃ comp : Comparison,
      find_best_deal [(⟨"x", none, some 10, [], none⟩ : SResult)] ["Amazon"] =
        Except.ok { r with comparison := some comp }) :=
  ⟨List.cons_ne_nil _ _,
    c7_no_mutation_amended.2.2 [⟨"x", none, some 10, [], none⟩] ["Amazon"]
      (List.cons_ne_nil _ _)⟩

/-- Claim C8: on a non-empty result list `find_best_deal` returns (the
comparison-augmented copy of) a record of minimal price, where a record
without a price counts as infinitely expensive — so a priceless record is
never selected while some record has a price — and the attached comparison
carries the average of the defaulted prices, a savings equal to that
average minus the best price, and the total result count. -/
theorem c8_best_deal :
    ∀ (all : List SResult) (ps : List String), all ≠ [] →
      ∃ r comp, r ∈ all ∧
        find_best_deal all ps = Except.ok { r with comparison := some comp } ∧
        (∀ s ∈ all, priceKey r ≤ priceKey s) ∧
        ((∃ s ∈ all, s.price ≠ none) → r.price ≠ none) ∧
        comp.average_price = averagePrice all ∧
        comp.savings = averagePrice all - r.price.getD 0 ∧
        comp.total_results = all.length := by
  intro all ps hne
  match all with
  | [] => exact absurd rfl hne
  | x :: xs =>
    have hle : ∀ s ∈ x :: xs, priceKey (minByPrice x xs) ≤ priceKey s := by
      intro s hs
      rcases List.mem_cons.mp hs with he | he
      · rw [he]; exact minByPrice_le_best xs x
      · exact minByPrice_le_mem xs x s he
    refine ⟨minByPrice x xs,
      ⟨averagePrice (x :: xs),
        averagePrice (x :: xs) - (minByPrice x xs).price.getD 0,
        if 0 < averagePrice (x :: xs) then
          (averagePrice (x :: xs) - (minByPrice x xs).price.getD 0) /
            averagePrice (x :: xs) * 100
        else 0, (x :: xs).length, ps⟩, ?_, rfl, hle, ?_, rfl, rfl, rfl⟩
    · rcases minByPrice_eq_or_mem xs x with he | he
      · rw [he]; exact List.mem_cons_self _ _
      · exact List.mem_cons_of_mem _ he
    · rintro ⟨s, hs, hsome⟩ hnone
      have htop : priceKey (minByPrice x xs) = ⊤ :=
        (priceKey_eq_top_iff _).mpr hnone
      have := hle s hs
      rw [htop, top_le_iff] at this
      exact hsome ((priceKey_eq_top_iff s).mp this)

/-- Claim C8, witness: applied to a concrete two-record list in which the
second record is cheaper. -/
theorem c8_best_deal_witness :
    (([⟨"a", none, some 20, [], none⟩, ⟨"b", none, some 10, [], none⟩] :
      List SResult) ≠ []) ∧
    (∃ r comp,
      r ∈ ([⟨"a", none, some 20, [], none⟩, ⟨"b", none, some 10, [], none⟩] :
        List SResult) ∧
      find_best_deal [⟨"a", none, some 20, [], none⟩,
          ⟨"b", none, some 10, [], none⟩] ["eBay"] =
        Except.ok { r with comparison := some comp } ∧
      (∀ s ∈ ([⟨"a", none, some 20, [], none⟩, ⟨"b", none, some 10, [], none⟩] :
        List SResult), priceKey r ≤ priceKey s) ∧
      ((∃ s ∈ ([⟨"a", none, some 20, [], none⟩,
          ⟨"b", none, some 10, [], none⟩] : List SResult), s.price ≠ none) →
        r.price ≠ none) ∧
      comp.average_price = averagePrice [⟨"a", none, some 20, [], none⟩,
        ⟨"b", none, some 10, [], none⟩] ∧
      comp.savings = averagePrice [⟨"a", none, some 20, [], none⟩,
        ⟨"b", none, some 10, [], none⟩] - r.price.getD 0 ∧
      comp.total_results = ([⟨"a", none, some 20, [], none⟩,
        ⟨"b", none, some 10, [], none⟩] : List SResult).length) :=
  ⟨List.cons_ne_nil _ _,
    c8_best_deal [⟨"a", none, some 20, [], none⟩, ⟨"b", none, some 10, [], none⟩]
      ["eBay"] (List.cons_ne_nil _ _)⟩

/-- Claim C9: every candidate returned by `detect_products` satisfies the
effective confidence threshold (options value if given, else the setting,
else the default 0.7): its defaulted confidence is at least the threshold,
and when the threshold is positive the candidate must actually carry a
confidence field of at least the threshold. -/
theorem c9_threshold :
    ∀ gr orr (optThr settingThr : Option ℚ) (k : Nat) (c : Candidate),
      c ∈ detect_products gr orr (effectiveThreshold optThr settingThr) k →
      effectiveThreshold optThr settingThr ≤ confOf c ∧
      (0 < effectiveThreshold optThr settingThr →
        ∃ q : ℚ, c.confidence = some q ∧
          effectiveThreshold optThr settingThr ≤ q) := by
  intro gr orr optThr settingThr k c hc
  have hconf := conf_of_output hc
  refine ⟨hconf, fun hpos => ?_⟩
  match hq : c.confidence with
  | none =>
    rw [confOf, hq, Option.getD_none] at hconf
    exact absurd (lt_of_lt_of_le hpos hconf) (lt_irrefl 0)
  | some q =>
    rw [confOf, hq, Option.getD_some] at hconf
    exact ⟨q, rfl, hconf⟩

/-- Claim C9, witness: with no options and no configured setting the
effective threshold is the default 0.7, and a candidate at confidence 0.9
is returned and satisfies both conclusions. -/
theorem c9_threshold_witness :
    (⟨"Tv", some (mkRat 9 10), []⟩ : Candidate) ∈
      detect_products (Except.ok [⟨"Tv", some (mkRat 9 10), []⟩])
        (Except.ok []) (effectiveThreshold none none) 5 ∧
    (effectiveThreshold none none ≤ confOf ⟨"Tv", some (mkRat 9 10), []⟩ ∧
      (0 < effectiveThreshold none none →
        ∃ q : ℚ, (⟨"Tv", some (mkRat 9 10), []⟩ : Candidate).confidence = some q ∧
          effectiveThreshold none none ≤ q)) :=
  ⟨by decide,
    c9_threshold (Except.ok [⟨"Tv", some (mkRat 9 10), []⟩]) (Except.ok [])
      none none 5 _ (by decide)⟩

/-- Claim C10: with `days = 0` the price-history lookup raises (Python's
`min()` over the empty history), while for `days ≥ 1` it returns exactly
`days` entries sorted by date ascending with
`lowest_price ≤ average_price ≤ highest_price`. -/
theorem c10_price_history :
    ∀ (pid : String) (days : Nat) (today : Int) (rand : Nat → ℚ)
      (stock : Nat → Bool),
      (days = 0 →
        ∃ msg, get_price_history pid days today rand stock = Except.error msg) ∧
      (1 ≤ days →
        ∃ res, get_price_history pid days today rand stock = Except.ok res ∧
          res.price_history.length = days ∧
          res.price_history.Pairwise dateLE ∧
          res.lowest_price ≤ res.average_price ∧
          res.average_price ≤ res.highest_price) := by
  intro pid days today rand stock
  constructor
  · intro h
    subst h
    exact ⟨_, rfl⟩
  · intro hdays
    rw [get_price_history]
    have hlen : (List.insertionSort dateLE ((List.range days).map fun (i : Nat) =>
        PricePoint.mk (today - (i : Int)) (mockPrice (basePrice pid) rand i)
          (stock i))).length = days := by
      rw [List.length_insertionSort, List.length_map, List.length_range]
    match hsort : List.insertionSort dateLE ((List.range days).map fun (i : Nat) =>
        PricePoint.mk (today - (i : Int)) (mockPrice (basePrice pid) rand i)
          (stock i)) with
    | [] =>
      rw [hsort] at hlen
      rw [← hlen] at hdays
      exact absurd hdays (by decide)
    | x :: xs =>
      rw [hsort] at hlen
      have hsorted : (x :: xs).Pairwise dateLE := by
        rw [← hsort]
        exact List.sorted_insertionSort dateLE _
      have hpos : (0 : ℚ) < (((x :: xs).length : ℕ) : ℚ) := by
        rw [List.length_cons]
        push_cast
        positivity
      refine ⟨_, rfl, hlen, hsorted, ?_, ?_⟩
      · show (xs.map fun p => p.price).foldl min x.price ≤
          ((x :: xs).map fun p => p.price).sum / (((x :: xs).length : ℕ) : ℚ)
        rw [le_div_iff₀ hpos]
        have hbound : ∀ y ∈ (x :: xs).map fun p => p.price,
            (xs.map fun p => p.price).foldl min x.price ≤ y := by
          intro y hy
          rw [List.map_cons] at hy
          rcases List.mem_cons.mp hy with he | he
          · rw [he]; exact foldl_min_le_init _ x.price
          · exact foldl_min_le_mem _ x.price y he
        have := mul_length_le_sum ((x :: xs).map fun p => p.price) hbound
        rwa [List.length_map] at this
      · show ((x :: xs).map fun p => p.price).sum / (((x :: xs).length : ℕ) : ℚ) ≤
          (xs.map fun p => p.price).foldl max x.price
        rw [div_le_iff₀ hpos]
        have hbound : ∀ y ∈ (x :: xs).map fun p => p.price,
            y ≤ (xs.map fun p => p.price).foldl max x.price := by
          intro y hy
          rw [List.map_cons] at hy
          rcases List.mem_cons.mp hy with he | he
          · rw [he]; exact init_le_foldl_max _ x.price
          · exact mem_le_foldl_max _ x.price y he
        have := sum_le_mul_length ((x :: xs).map fun p => p.price) hbound
        rwa [List.length_map] at this

/-- Claim C10, witness: at `days = 0` the call errors, and at `days = 2`
(with the randomness oracle returning 0) all conclusions hold. -/
theorem c10_price_history_witness :
    ((0 : Nat) = 0 ∧
      ∃ msg, get_price_history "7" 0 0 (fun _ => 0) (fun _ => true) =
        Except.error msg) ∧
    (1 ≤ (2 : Nat) ∧
      ∃ res, get_price_history "7" 2 0 (fun _ => 0) (fun _ => true) =
        Except.ok res ∧
        res.price_history.length = 2 ∧
        res.price_history.Pairwise dateLE ∧
        res.lowest_price ≤ res.average_price ∧
        res.average_price ≤ res.highest_price) :=
  ⟨⟨rfl, (c10_price_history "7" 0 0 (fun _ => 0) (fun _ => true)).1 rfl⟩,
    ⟨by decide, (c10_price_history "7" 2 0 (fun _ => 0) (fun _ => true)).2
      (by decide)⟩⟩

end Viro
